import Mathlib

/-!
Verification of the CodeWiki-MCP repository (Python) against its
natural-language specification.

The Python sources are shallowly embedded: pure functions over strings
are modelled over `List Char` (one entry per Python character),
stateful code (the rate limiter) passes its state explicitly, and
machine integers are modelled as `Int`/`Nat`.  Every definition is a
direct translation of the corresponding function in the repository; a
comment on each definition names the Python source it embeds.
-/

namespace CodeWiki

/-! ## Python string primitives

Helpers mirroring the Python `str` methods used by the sources.
Python strings are modelled as `List Char`.
-/

/-- Characters treated as whitespace by Python's default `str.strip` /
`str.rstrip` (ASCII subset; the sources never strip non-ASCII blanks). -/
def pyIsSpace (c : Char) : Bool :=
  c = ' ' || c = '\t' || c = '\n' || c = '\r' || c = '\x0b' || c = '\x0c'

/-- Python `s.rstrip()` on a character list. -/
def pyRStrip (l : List Char) : List Char :=
  (l.reverse.dropWhile pyIsSpace).reverse

/-- Python `s.strip()` on a character list. -/
def pyStrip (l : List Char) : List Char :=
  pyRStrip (l.dropWhile pyIsSpace)

/-- Python `s.strip()` on a `String`. -/
def pyStripS (s : String) : String :=
  ⟨pyStrip s.toList⟩

/-- Python `s.lower()` on a `String` (character-wise `Char.toLower`,
which agrees with CPython on the ASCII identifiers handled here).
Value-identical to `String.toLower`, which is avoided only because its
well-founded byte-level recursion does not reduce inside the kernel. -/
def pyLowerS (s : String) : String :=
  ⟨s.toList.map Char.toLower⟩

/-- Python `s.rfind(c)` for a single-character needle: index of the last
occurrence, as `some i`, or `none` when absent (Python returns `-1`;
every use in the sources only compares the result against a positive
bound, so the `-1` case coincides with `none`). -/
def lastIdxOf (l : List Char) (c : Char) : Option Nat :=
  match l with
  | [] => none
  | x :: xs =>
    match lastIdxOf xs c with
    | some i => some (i + 1)
    | none => if x = c then some 0 else none

/-- Python `needle in hay` (substring containment) on character lists. -/
def pyContains (needle hay : List Char) : Bool :=
  decide (needle <:+: hay)

/-- Python `needle in hay` on `String`s. -/
def pyContainsS (needle hay : String) : Bool :=
  pyContains needle.toList hay.toList

/-- Python `max(x :: xs, key=key)`: the first element attaining the
maximal key (later elements replace the current best only when strictly
greater, exactly as CPython's `max` behaves). -/
def pyMaxBy {α : Type} (key : α → Int) (x : α) (xs : List α) : α :=
  xs.foldl (fun acc y => if key acc < key y then y else acc) x

/-! ## Search result model and selection heuristics

Embeds `src/codewiki_mcp/resolver.py`.
-/

/-- `resolver.SearchResult` — a single repo result from CodeWiki's
search page (`resolver.py`, lines 65-77). `stars` is a Python `int`. -/
structure SearchResult where
  owner : String
  repo : String
  description : String
  stars : Int
  codewiki_url : String
deriving DecidableEq, Repr

/-- `SearchResult.full_name` (`resolver.py`, line 75-77). -/
def SearchResult.full_name (r : SearchResult) : String :=
  r.owner ++ "/" ++ r.repo

/-- The canonical-match filter of `_select_best_match` heuristic 1
(`resolver.py`, line 311): owner and repo both equal the normalized
keyword, case-insensitively. -/
def canonicalMatches (kw : String) (results : List SearchResult) : List SearchResult :=
  results.filter (fun r => pyLowerS r.owner == kw && pyLowerS r.repo == kw)

/-- The exact-repo-name filter of heuristic 2 (`resolver.py`, line 317). -/
def exactRepoMatches (kw : String) (results : List SearchResult) : List SearchResult :=
  results.filter (fun r => pyLowerS r.repo == kw)

/-- The owner-contains filter of heuristic 3 (`resolver.py`, line 324). -/
def ownerContainsMatches (kw : String) (results : List SearchResult) : List SearchResult :=
  results.filter (fun r => pyContainsS kw (pyLowerS r.owner))

/-- The repo-contains filter of heuristic 4 (`resolver.py`, line 334). -/
def repoContainsMatches (kw : String) (results : List SearchResult) : List SearchResult :=
  results.filter (fun r => pyContainsS kw (pyLowerS r.repo))

/-- `resolver._select_best_match` (`resolver.py`, lines 294-339).
`kw = keyword.lower().strip()`; empty result list yields `None`;
each heuristic's `max(..., key=lambda r: r.stars)` is `pyMaxBy`. -/
def select_best_match (keyword : String) (results : List SearchResult) :
    Option SearchResult :=
  let kw := pyStripS (pyLowerS keyword)
  match results with
  | [] => none
  | r₀ :: _ =>
    match canonicalMatches kw results with
    | c :: cs => some (pyMaxBy SearchResult.stars c cs)
    | [] =>
      match exactRepoMatches kw results with
      | e :: es => some (pyMaxBy SearchResult.stars e es)
      | [] =>
        match ownerContainsMatches kw results with
        | o :: os =>
          match exactRepoMatches kw (o :: os) with
          | a :: as_ => some (pyMaxBy SearchResult.stars a as_)
          | [] => some (pyMaxBy SearchResult.stars o os)
        | [] =>
          match repoContainsMatches kw results with
          | p :: ps => some (pyMaxBy SearchResult.stars p ps)
          | [] => some r₀

/-- `resolver._has_canonical_match` (`resolver.py`, lines 383-389):
first result whose owner and repo both equal the normalized keyword. -/
def has_canonical_match (keyword : String) (results : List SearchResult) :
    Option SearchResult :=
  let kw := pyStripS (pyLowerS keyword)
  results.find? (fun r => pyLowerS r.owner == kw && pyLowerS r.repo == kw)

/-- Outcome of `resolver.resolve_keyword_interactive`: the selected
`owner/repo` (or `none`), the full result list returned alongside, and
— instrumentation for the specification — whether the interactive
elicitation prompt (`_elicit_repo_choice`) was invoked. -/
structure ResolveOutcome where
  selected : Option String
  results : List SearchResult
  prompted : Bool
deriving DecidableEq, Repr

/-- `resolver.resolve_keyword_interactive` (`resolver.py`, lines
452-527), with its effects made explicit parameters:
`cwResults` is the value of `_fetch_search_results(keyword)`,
`ghResults` the value of the `_github_search(keyword)` fallback, and
`elicitation` models the MCP context: `none` = no `ctx` supplied;
`some (some s)` = the user accepted choice `s` in the prompt;
`some none` = the user declined/cancelled or elicitation raised
(both fall through to the heuristic selection in the source). -/
def resolve_keyword_interactive (keyword : String)
    (cwResults ghResults : List SearchResult)
    (elicitation : Option (Option String)) : ResolveOutcome :=
  let results := if cwResults.isEmpty then ghResults else cwResults
  match results with
  | [] => ⟨none, [], false⟩
  | r₀ :: rest =>
    if rest.isEmpty then ⟨some r₀.full_name, results, false⟩
    else
      match has_canonical_match keyword results with
      | some c => ⟨some c.full_name, results, false⟩
      | none =>
        let heuristic : Bool → ResolveOutcome := fun prompted =>
          match select_best_match keyword results with
          | none => ⟨none, results, prompted⟩
          | some best => ⟨some best.full_name, results, prompted⟩
        match elicitation with
        | none => heuristic false
        | some outcome =>
          match outcome with
          | some s =>
            -- `if selected:` — the empty string is falsy in Python
            if s = "" then heuristic true else ⟨some s, results, true⟩
          | none => heuristic true

/-! ## Properties of `pyMaxBy` (CPython `max` with a key) -/

theorem pyMaxBy_mem {α : Type} (key : α → Int) (x : α) (xs : List α) :
    pyMaxBy key x xs = x ∨ pyMaxBy key x xs ∈ xs := by
  induction xs generalizing x with
  | nil => left; rfl
  | cons y ys ih =>
    unfold pyMaxBy at *
    simp only [List.foldl_cons]
    by_cases h : key x < key y
    · simp only [h, if_pos]
      rcases ih y with h' | h'
      · right; rw [h']; exact List.mem_cons_self _ _
      · right; exact List.mem_cons_of_mem _ h'
    · simp only [h, if_neg, if_false]
      rcases ih x with h' | h'
      · left; exact h'
      · right; exact List.mem_cons_of_mem _ h'

theorem pyMaxBy_le {α : Type} (key : α → Int) (x : α) (xs : List α) :
    key x ≤ key (pyMaxBy key x xs) ∧
      ∀ z ∈ xs, key z ≤ key (pyMaxBy key x xs) := by
  induction xs generalizing x with
  | nil => exact ⟨le_refl _, by intro z hz; cases hz⟩
  | cons y ys ih =>
    unfold pyMaxBy at *
    simp only [List.foldl_cons]
    by_cases h : key x < key y
    · simp only [h, if_pos]
      refine ⟨le_trans (le_of_lt h) (ih y).1, ?_⟩
      intro z hz
      rcases List.mem_cons.mp hz with hzy | hz
      · rw [hzy]; exact (ih y).1
      · exact (ih y).2 z hz
    · simp only [h, if_neg, if_false]
      refine ⟨(ih x).1, ?_⟩
      intro z hz
      rcases List.mem_cons.mp hz with hzy | hz
      · rw [hzy]; exact le_trans (not_lt.mp h) (ih x).1
      · exact (ih x).2 z hz

/-! ## Case lemmas for `select_best_match` -/

theorem sbm_case1 (keyword : String) (r₀ : SearchResult) (rest : List SearchResult)
    (c : SearchResult) (cs : List SearchResult)
    (hc : canonicalMatches (pyStripS (pyLowerS keyword)) (r₀ :: rest) = c :: cs) :
    select_best_match keyword (r₀ :: rest) = some (pyMaxBy SearchResult.stars c cs) := by
  unfold select_best_match
  simp only [hc]

theorem sbm_case2 (keyword : String) (r₀ : SearchResult) (rest : List SearchResult)
    (hc : canonicalMatches (pyStripS (pyLowerS keyword)) (r₀ :: rest) = [])
    (e : SearchResult) (es : List SearchResult)
    (he : exactRepoMatches (pyStripS (pyLowerS keyword)) (r₀ :: rest) = e :: es) :
    select_best_match keyword (r₀ :: rest) = some (pyMaxBy SearchResult.stars e es) := by
  unfold select_best_match
  simp only [hc, he]

theorem sbm_case3 (keyword : String) (r₀ : SearchResult) (rest : List SearchResult)
    (hc : canonicalMatches (pyStripS (pyLowerS keyword)) (r₀ :: rest) = [])
    (he : exactRepoMatches (pyStripS (pyLowerS keyword)) (r₀ :: rest) = [])
    (o : SearchResult) (os : List SearchResult)
    (ho : ownerContainsMatches (pyStripS (pyLowerS keyword)) (r₀ :: rest) = o :: os) :
    select_best_match keyword (r₀ :: rest) = some (pyMaxBy SearchResult.stars o os) := by
  have hsub : exactRepoMatches (pyStripS (pyLowerS keyword)) (o :: os) = [] := by
    unfold exactRepoMatches at he ⊢
    rw [List.filter_eq_nil_iff] at he ⊢
    intro a ha
    have h' : a ∈ ownerContainsMatches (pyStripS (pyLowerS keyword)) (r₀ :: rest) := by
      rw [ho]; exact ha
    unfold ownerContainsMatches at h'
    exact he a (List.mem_of_mem_filter h')
  unfold select_best_match
  simp only [hc, he, ho, hsub]

theorem sbm_case4 (keyword : String) (r₀ : SearchResult) (rest : List SearchResult)
    (hc : canonicalMatches (pyStripS (pyLowerS keyword)) (r₀ :: rest) = [])
    (he : exactRepoMatches (pyStripS (pyLowerS keyword)) (r₀ :: rest) = [])
    (ho : ownerContainsMatches (pyStripS (pyLowerS keyword)) (r₀ :: rest) = [])
    (p : SearchResult) (ps : List SearchResult)
    (hp : repoContainsMatches (pyStripS (pyLowerS keyword)) (r₀ :: rest) = p :: ps) :
    select_best_match keyword (r₀ :: rest) = some (pyMaxBy SearchResult.stars p ps) := by
  unfold select_best_match
  simp only [hc, he, ho, hp]

theorem sbm_case5 (keyword : String) (r₀ : SearchResult) (rest : List SearchResult)
    (hc : canonicalMatches (pyStripS (pyLowerS keyword)) (r₀ :: rest) = [])
    (he : exactRepoMatches (pyStripS (pyLowerS keyword)) (r₀ :: rest) = [])
    (ho : ownerContainsMatches (pyStripS (pyLowerS keyword)) (r₀ :: rest) = [])
    (hp : repoContainsMatches (pyStripS (pyLowerS keyword)) (r₀ :: rest) = []) :
    select_best_match keyword (r₀ :: rest) = some r₀ := by
  unfold select_best_match
  simp only [hc, he, ho, hp]

theorem pyMaxBy_spec {α : Type} (key : α → Int) (x : α) (xs : List α) :
    pyMaxBy key x xs ∈ x :: xs ∧
      ∀ z ∈ x :: xs, key z ≤ key (pyMaxBy key x xs) := by
  constructor
  · rcases pyMaxBy_mem key x xs with h | h
    · rw [h]; exact List.mem_cons_self _ _
    · exact List.mem_cons_of_mem _ h
  · intro z hz
    rcases List.mem_cons.mp hz with hzx | hz
    · rw [hzx]; exact (pyMaxBy_le key x xs).1
    · exact (pyMaxBy_le key x xs).2 z hz

/-- The "vue" search-result set of the end-to-end scenario:
`{vuejs/vue (210000★), vuejs/core (53000★), someone/vue-utils (5★)}`. -/
def vueResults : List SearchResult :=
  [⟨"vuejs", "vue", "", 210000, ""⟩,
   ⟨"vuejs", "core", "", 53000, ""⟩,
   ⟨"someone", "vue-utils", "", 5, ""⟩]

/-- The "openclaw" search-result set of the end-to-end scenario:
`{openclaw/openclaw (500★), other/openclaw-fork (10★)}`. -/
def openclawResults : List SearchResult :=
  [⟨"openclaw", "openclaw", "", 500, ""⟩,
   ⟨"other", "openclaw-fork", "", 10, ""⟩]

/-- **C1** — `_select_best_match` picks a result by trying the priority
rules in order, first matching rule wins, ties broken by highest star
count: (1) canonical match (owner and repo both equal the keyword,
case-insensitively), (2) exact repo-name match (highest-starred), (3)
owner contains the keyword (highest-starred; no result with an exactly
matching repo name can remain at this point), (4) repo name contains
the keyword (highest-starred), (5) otherwise the first result.  In
particular, for "vue" with `{vuejs/vue (210000★), vuejs/core (53000★),
someone/vue-utils (5★)}` it selects vuejs/vue via the exact-repo-name
rule (rule 1 does not apply, rule 2 does). -/
theorem select_best_match_priority_order :
    (∀ (keyword : String) (results : List SearchResult), results ≠ [] →
      ∃ r, select_best_match keyword results = some r ∧ r ∈ results ∧
        (canonicalMatches (pyStripS (pyLowerS keyword)) results ≠ [] →
          r ∈ canonicalMatches (pyStripS (pyLowerS keyword)) results ∧
          ∀ s ∈ canonicalMatches (pyStripS (pyLowerS keyword)) results,
            s.stars ≤ r.stars) ∧
        (canonicalMatches (pyStripS (pyLowerS keyword)) results = [] →
          exactRepoMatches (pyStripS (pyLowerS keyword)) results ≠ [] →
          r ∈ exactRepoMatches (pyStripS (pyLowerS keyword)) results ∧
          ∀ s ∈ exactRepoMatches (pyStripS (pyLowerS keyword)) results,
            s.stars ≤ r.stars) ∧
        (canonicalMatches (pyStripS (pyLowerS keyword)) results = [] →
          exactRepoMatches (pyStripS (pyLowerS keyword)) results = [] →
          ownerContainsMatches (pyStripS (pyLowerS keyword)) results ≠ [] →
          r ∈ ownerContainsMatches (pyStripS (pyLowerS keyword)) results ∧
          ∀ s ∈ ownerContainsMatches (pyStripS (pyLowerS keyword)) results,
            s.stars ≤ r.stars) ∧
        (canonicalMatches (pyStripS (pyLowerS keyword)) results = [] →
          exactRepoMatches (pyStripS (pyLowerS keyword)) results = [] →
          ownerContainsMatches (pyStripS (pyLowerS keyword)) results = [] →
          repoContainsMatches (pyStripS (pyLowerS keyword)) results ≠ [] →
          r ∈ repoContainsMatches (pyStripS (pyLowerS keyword)) results ∧
          ∀ s ∈ repoContainsMatches (pyStripS (pyLowerS keyword)) results,
            s.stars ≤ r.stars) ∧
        (canonicalMatches (pyStripS (pyLowerS keyword)) results = [] →
          exactRepoMatches (pyStripS (pyLowerS keyword)) results = [] →
          ownerContainsMatches (pyStripS (pyLowerS keyword)) results = [] →
          repoContainsMatches (pyStripS (pyLowerS keyword)) results = [] →
          results.head? = some r)) ∧
    select_best_match "vue" vueResults =
      some ⟨"vuejs", "vue", "", 210000, ""⟩ ∧
    canonicalMatches (pyStripS (pyLowerS "vue")) vueResults = [] ∧
    exactRepoMatches (pyStripS (pyLowerS "vue")) vueResults ≠ [] := by
  refine ⟨?_, by decide, by decide, by decide⟩
  intro keyword results hne
  obtain ⟨r₀, rest, rfl⟩ := List.exists_cons_of_ne_nil hne
  rcases hcan : canonicalMatches (pyStripS (pyLowerS keyword)) (r₀ :: rest)
      with _ | ⟨c, cs⟩
  case cons =>
    refine ⟨pyMaxBy SearchResult.stars c cs,
      sbm_case1 keyword r₀ rest c cs hcan, ?_, ?_, ?_, ?_, ?_, ?_⟩
    · have hmem := (pyMaxBy_spec SearchResult.stars c cs).1
      rw [← hcan] at hmem
      unfold canonicalMatches at hmem
      exact List.mem_of_mem_filter hmem
    · intro _
      exact pyMaxBy_spec SearchResult.stars c cs
    all_goals intro h; exact absurd h (List.cons_ne_nil _ _)
  case nil =>
    rcases hex : exactRepoMatches (pyStripS (pyLowerS keyword)) (r₀ :: rest)
        with _ | ⟨e, es⟩
    case cons =>
      refine ⟨pyMaxBy SearchResult.stars e es,
        sbm_case2 keyword r₀ rest hcan e es hex, ?_, ?_, ?_, ?_, ?_, ?_⟩
      · have hmem := (pyMaxBy_spec SearchResult.stars e es).1
        rw [← hex] at hmem
        unfold exactRepoMatches at hmem
        exact List.mem_of_mem_filter hmem
      · intro h; exact absurd rfl h
      · intro _ _
        exact pyMaxBy_spec SearchResult.stars e es
      all_goals intro _ h; exact absurd h (List.cons_ne_nil _ _)
    case nil =>
      rcases how : ownerContainsMatches (pyStripS (pyLowerS keyword)) (r₀ :: rest)
          with _ | ⟨o, os⟩
      case cons =>
        refine ⟨pyMaxBy SearchResult.stars o os,
          sbm_case3 keyword r₀ rest hcan hex o os how, ?_, ?_, ?_, ?_, ?_, ?_⟩
        · have hmem := (pyMaxBy_spec SearchResult.stars o os).1
          rw [← how] at hmem
          unfold ownerContainsMatches at hmem
          exact List.mem_of_mem_filter hmem
        · intro h; exact absurd rfl h
        · intro _ h; exact absurd rfl h
        · intro _ _ _
          exact pyMaxBy_spec SearchResult.stars o os
        all_goals intro _ _ h; exact absurd h (List.cons_ne_nil _ _)
      case nil =>
        rcases hrc : repoContainsMatches (pyStripS (pyLowerS keyword)) (r₀ :: rest)
            with _ | ⟨p, ps⟩
        case cons =>
          refine ⟨pyMaxBy SearchResult.stars p ps,
            sbm_case4 keyword r₀ rest hcan hex how p ps hrc, ?_, ?_, ?_, ?_, ?_, ?_⟩
          · have hmem := (pyMaxBy_spec SearchResult.stars p ps).1
            rw [← hrc] at hmem
            unfold repoContainsMatches at hmem
            exact List.mem_of_mem_filter hmem
          · intro h; exact absurd rfl h
          · intro _ h; exact absurd rfl h
          · intro _ _ h; exact absurd rfl h
          · intro _ _ _ _
            exact pyMaxBy_spec SearchResult.stars p ps
          · intro _ _ _ h; exact absurd h (List.cons_ne_nil _ _)
        case nil =>
          refine ⟨r₀, sbm_case5 keyword r₀ rest hcan hex how hrc,
            List.mem_cons_self _ _, ?_, ?_, ?_, ?_, fun _ _ _ _ => rfl⟩
          · intro h; exact absurd rfl h
          · intro _ h; exact absurd rfl h
          · intro _ _ h; exact absurd rfl h
          · intro _ _ _ h; exact absurd rfl h

/-- Witness for C1: the universal part applied to the concrete "vue"
scenario from the specification. -/
theorem select_best_match_priority_order_witness :
    ∃ r, select_best_match "vue" vueResults = some r ∧ r ∈ vueResults ∧
      (canonicalMatches (pyStripS (pyLowerS "vue")) vueResults ≠ [] →
        r ∈ canonicalMatches (pyStripS (pyLowerS "vue")) vueResults ∧
        ∀ s ∈ canonicalMatches (pyStripS (pyLowerS "vue")) vueResults,
          s.stars ≤ r.stars) ∧
      (canonicalMatches (pyStripS (pyLowerS "vue")) vueResults = [] →
        exactRepoMatches (pyStripS (pyLowerS "vue")) vueResults ≠ [] →
        r ∈ exactRepoMatches (pyStripS (pyLowerS "vue")) vueResults ∧
        ∀ s ∈ exactRepoMatches (pyStripS (pyLowerS "vue")) vueResults,
          s.stars ≤ r.stars) ∧
      (canonicalMatches (pyStripS (pyLowerS "vue")) vueResults = [] →
        exactRepoMatches (pyStripS (pyLowerS "vue")) vueResults = [] →
        ownerContainsMatches (pyStripS (pyLowerS "vue")) vueResults ≠ [] →
        r ∈ ownerContainsMatches (pyStripS (pyLowerS "vue")) vueResults ∧
        ∀ s ∈ ownerContainsMatches (pyStripS (pyLowerS "vue")) vueResults,
          s.stars ≤ r.stars) ∧
      (canonicalMatches (pyStripS (pyLowerS "vue")) vueResults = [] →
        exactRepoMatches (pyStripS (pyLowerS "vue")) vueResults = [] →
        ownerContainsMatches (pyStripS (pyLowerS "vue")) vueResults = [] →
        repoContainsMatches (pyStripS (pyLowerS "vue")) vueResults ≠ [] →
        r ∈ repoContainsMatches (pyStripS (pyLowerS "vue")) vueResults ∧
        ∀ s ∈ repoContainsMatches (pyStripS (pyLowerS "vue")) vueResults,
          s.stars ≤ r.stars) ∧
      (canonicalMatches (pyStripS (pyLowerS "vue")) vueResults = [] →
        exactRepoMatches (pyStripS (pyLowerS "vue")) vueResults = [] →
        ownerContainsMatches (pyStripS (pyLowerS "vue")) vueResults = [] →
        repoContainsMatches (pyStripS (pyLowerS "vue")) vueResults = [] →
        vueResults.head? = some r) :=
  select_best_match_priority_order.1 "vue" vueResults (by decide)

/-- Case lemma: with more than one result and a canonical match,
`resolve_keyword_interactive` returns the canonical match without
invoking elicitation, whatever the elicitation channel would do. -/
theorem rki_canonical_case (keyword : String)
    (cwResults ghResults : List SearchResult)
    (elicitation : Option (Option String))
    (r₀ r₁ : SearchResult) (rest : List SearchResult) (c : SearchResult)
    (hres : (if cwResults.isEmpty then ghResults else cwResults) =
      r₀ :: r₁ :: rest)
    (hc : has_canonical_match keyword (r₀ :: r₁ :: rest) = some c) :
    resolve_keyword_interactive keyword cwResults ghResults elicitation =
      ⟨some c.full_name, r₀ :: r₁ :: rest, false⟩ := by
  unfold resolve_keyword_interactive
  simp only [hres, hc, List.isEmpty_cons, if_false, Bool.false_eq_true]

/-- **C2** — for every keyword whose search yields more than one
result, if some result is a canonical match (owner and repo both equal
the normalized keyword case-insensitively), `resolve_keyword_interactive`
returns a canonical match's owner/repo with the prompt never invoked,
whatever the elicitation channel would have answered.  In particular,
"openclaw" with `{openclaw/openclaw (500★), other/openclaw-fork (10★)}`
resolves to openclaw/openclaw without prompting. -/
theorem resolve_keyword_interactive_canonical_no_prompt :
    (∀ (keyword : String) (cwResults ghResults : List SearchResult)
        (elicitation : Option (Option String)),
      1 < (if cwResults.isEmpty then ghResults else cwResults).length →
      (∃ r ∈ (if cwResults.isEmpty then ghResults else cwResults),
          pyLowerS r.owner = pyStripS (pyLowerS keyword) ∧
          pyLowerS r.repo = pyStripS (pyLowerS keyword)) →
      ∃ c, resolve_keyword_interactive keyword cwResults ghResults elicitation =
          ⟨some c.full_name,
            if cwResults.isEmpty then ghResults else cwResults, false⟩ ∧
        c ∈ (if cwResults.isEmpty then ghResults else cwResults) ∧
        pyLowerS c.owner = pyStripS (pyLowerS keyword) ∧
        pyLowerS c.repo = pyStripS (pyLowerS keyword)) ∧
    (∀ elicitation : Option (Option String),
      resolve_keyword_interactive "openclaw" openclawResults [] elicitation =
        ⟨some "openclaw/openclaw", openclawResults, false⟩) := by
  constructor
  · intro keyword cwResults ghResults elicitation hlen hex
    obtain ⟨r₀, rest, hres⟩ :=
      List.exists_cons_of_ne_nil (l := if cwResults.isEmpty then ghResults else cwResults)
        (by intro h; rw [h] at hlen; simp at hlen)
    obtain ⟨r₁, rest', hrest⟩ := List.exists_cons_of_ne_nil (l := rest) (by
      intro h
      rw [hres, h] at hlen
      simp at hlen)
    rw [hrest] at hres
    have hsome : (has_canonical_match keyword (r₀ :: r₁ :: rest')).isSome := by
      rw [← hres]
      unfold has_canonical_match
      rw [List.find?_isSome]
      obtain ⟨r, hrmem, h₁, h₂⟩ := hex
      exact ⟨r, hrmem, by simp [h₁, h₂]⟩
    obtain ⟨c, hc⟩ := Option.isSome_iff_exists.mp hsome
    have hcp := List.find?_some hc
    have hcmem := List.mem_of_find?_eq_some hc
    simp only [Bool.and_eq_true, beq_iff_eq] at hcp
    refine ⟨c, ?_, by rw [hres]; exact hcmem, hcp.1, hcp.2⟩
    rw [hres]
    exact rki_canonical_case keyword cwResults ghResults elicitation r₀ r₁ rest' c hres hc
  · intro elicitation
    exact rki_canonical_case "openclaw" openclawResults [] elicitation
      ⟨"openclaw", "openclaw", "", 500, ""⟩
      ⟨"other", "openclaw-fork", "", 10, ""⟩ []
      ⟨"openclaw", "openclaw", "", 500, ""⟩ (by decide) (by decide)

/-- Witness for C2: the universal part applied to the concrete
"openclaw" scenario (with an elicitation channel present that would
answer, showing it is ignored). -/
theorem resolve_keyword_interactive_canonical_no_prompt_witness :
    ∃ c, resolve_keyword_interactive "openclaw" openclawResults []
          (some (some "other/openclaw-fork")) =
        ⟨some c.full_name,
          if openclawResults.isEmpty then
            ([] : List SearchResult) else openclawResults, false⟩ ∧
      c ∈ (if openclawResults.isEmpty then
            ([] : List SearchResult) else openclawResults) ∧
      pyLowerS c.owner = pyStripS (pyLowerS "openclaw") ∧
      pyLowerS c.repo = pyStripS (pyLowerS "openclaw") :=
  resolve_keyword_interactive_canonical_no_prompt.1 "openclaw"
    openclawResults [] (some (some "other/openclaw-fork"))
    (by decide)
    ⟨⟨"openclaw", "openclaw", "", 500, ""⟩, by decide, by decide, by decide⟩

/-! ## Response truncation

Embeds `truncate_response` from `src/codewiki_mcp/tools/_helpers.py`
(lines 147-167).
-/

/-- The truncation marker `"\n\n... [truncated]"` appended by
`truncate_response` (17 characters). -/
def truncMarker : List Char := "\n\n... [truncated]".toList

/-- The space-fallback branch of `truncate_response` (`_helpers.py`,
lines 162-165): `last_sp = cut.rfind(" "); if last_sp > max_chars * 0.8:
cut = cut[:last_sp]`.  The float comparison `i > max_chars * 0.8` is
embedded as `4 * maxChars < 5 * i`: for the integer operands occurring
here the IEEE-double product `max_chars * 0.8` compares against the
integer `i` exactly as the rational `4 * max_chars / 5` does (the
representation error of `0.8` is orders of magnitude below the spacing
of the integers involved), and Python's `-1` for "not found" (which
never satisfies the comparison) is the `none` case. -/
def truncSpaceCut (cut : List Char) (maxChars : Nat) : List Char :=
  match lastIdxOf cut ' ' with
  | some j => if 4 * maxChars < 5 * j then cut.take j else cut
  | none => cut

/-- The cut-point selection of `truncate_response` (`_helpers.py`,
lines 157-165): prefer the last newline within the final 20% of the
budget, falling back to the last space within the final 20%. -/
def truncCutPoint (cut : List Char) (maxChars : Nat) : List Char :=
  match lastIdxOf cut '\n' with
  | some i =>
    if 4 * maxChars < 5 * i then cut.take i else truncSpaceCut cut maxChars
  | none => truncSpaceCut cut maxChars

/-- `_helpers.truncate_response` (`_helpers.py`, lines 147-167).
Returns `(text, was_truncated)`; on truncation the result is
`cut.rstrip() + "\n\n... [truncated]"`. -/
def truncate_response (data : List Char) (maxChars : Nat) : List Char × Bool :=
  if maxChars = 0 ∨ data.length ≤ maxChars then (data, false)
  else (pyRStrip (truncCutPoint (data.take maxChars) maxChars) ++ truncMarker, true)

/-! ### Specification of `lastIdxOf` (Python `rfind`) -/

theorem lastIdxOf_none {l : List Char} {c : Char}
    (h : lastIdxOf l c = none) : ∀ j : Nat, l[j]? ≠ some c := by
  induction l with
  | nil => intro j; simp
  | cons y ys ih =>
    unfold lastIdxOf at h
    cases hy : lastIdxOf ys c with
    | some k => rw [hy] at h; cases h
    | none =>
      rw [hy] at h
      by_cases hyc : y = c
      · rw [if_pos hyc] at h; cases h
      · rw [if_neg hyc] at h
        intro j
        match j with
        | 0 =>
          intro hc
          rw [List.getElem?_cons_zero] at hc
          exact hyc (by simpa using hc)
        | j + 1 =>
          rw [List.getElem?_cons_succ]
          exact ih hy j

theorem lastIdxOf_some {l : List Char} {c : Char} {i : Nat}
    (h : lastIdxOf l c = some i) :
    i < l.length ∧ l[i]? = some c ∧ ∀ j, i < j → l[j]? ≠ some c := by
  induction l generalizing i with
  | nil => cases h
  | cons x xs ih =>
    unfold lastIdxOf at h
    cases hx : lastIdxOf xs c with
    | some k =>
      rw [hx] at h
      obtain rfl : k + 1 = i := by simpa using h
      obtain ⟨hk₁, hk₂, hk₃⟩ := ih hx
      refine ⟨by simp only [List.length_cons]; omega,
        by rw [List.getElem?_cons_succ]; exact hk₂, ?_⟩
      intro j hj
      match j, hj with
      | j + 1, hj =>
        rw [List.getElem?_cons_succ]
        exact hk₃ j (by omega)
    | none =>
      rw [hx] at h
      by_cases hxc : x = c
      · rw [if_pos hxc] at h
        obtain rfl : 0 = i := by simpa using h
        subst hxc
        refine ⟨by simp, by simp, ?_⟩
        intro j hj
        match j, hj with
        | j + 1, hj =>
          rw [List.getElem?_cons_succ]
          exact lastIdxOf_none hx j
      · rw [if_neg hxc] at h
        cases h

/-- `pyRStrip` yields a prefix of its argument. -/
theorem pyRStrip_prefixOf (l : List Char) : pyRStrip l <+: l := by
  unfold pyRStrip
  have h₁ : l.reverse.dropWhile pyIsSpace <:+ l.reverse :=
    List.dropWhile_suffix _
  have h₂ := List.reverse_prefix.mpr h₁
  simpa using h₂

/-! ### Case lemmas for the truncation cut point -/

theorem tcp_nl (cut : List Char) (m : Nat) {i₀ : Nat}
    (h : lastIdxOf cut '\n' = some i₀) (hc : 4 * m < 5 * i₀) :
    truncCutPoint cut m = cut.take i₀ := by
  unfold truncCutPoint
  simp only [h, if_pos hc]

theorem tcp_nl_low (cut : List Char) (m : Nat) {i₀ : Nat}
    (h : lastIdxOf cut '\n' = some i₀) (hc : ¬ 4 * m < 5 * i₀) :
    truncCutPoint cut m = truncSpaceCut cut m := by
  unfold truncCutPoint
  simp only [h, if_neg hc]

theorem tcp_no_nl (cut : List Char) (m : Nat)
    (h : lastIdxOf cut '\n' = none) :
    truncCutPoint cut m = truncSpaceCut cut m := by
  unfold truncCutPoint
  simp only [h]

theorem tsc_sp (cut : List Char) (m : Nat) {j₀ : Nat}
    (h : lastIdxOf cut ' ' = some j₀) (hc : 4 * m < 5 * j₀) :
    truncSpaceCut cut m = cut.take j₀ := by
  unfold truncSpaceCut
  simp only [h, if_pos hc]

theorem tsc_sp_low (cut : List Char) (m : Nat) {j₀ : Nat}
    (h : lastIdxOf cut ' ' = some j₀) (hc : ¬ 4 * m < 5 * j₀) :
    truncSpaceCut cut m = cut := by
  unfold truncSpaceCut
  simp only [h, if_neg hc]

theorem tsc_no_sp (cut : List Char) (m : Nat)
    (h : lastIdxOf cut ' ' = none) :
    truncSpaceCut cut m = cut := by
  unfold truncSpaceCut
  simp only [h]

/-- The selected cut is always a prefix of the budget-limited text. -/
theorem truncCutPoint_prefixOf (cut : List Char) (m : Nat) :
    truncCutPoint cut m <+: cut := by
  have hsp : truncSpaceCut cut m <+: cut := by
    cases hs : lastIdxOf cut ' ' with
    | some j₀ =>
      by_cases hc : 4 * m < 5 * j₀
      · rw [tsc_sp cut m hs hc]; exact List.take_prefix _ _
      · rw [tsc_sp_low cut m hs hc]
    | none => rw [tsc_no_sp cut m hs]
  cases hn : lastIdxOf cut '\n' with
  | some i₀ =>
    by_cases hc : 4 * m < 5 * i₀
    · rw [tcp_nl cut m hn hc]; exact List.take_prefix _ _
    · rw [tcp_nl_low cut m hn hc]; exact hsp
  | none => rw [tcp_no_nl cut m hn]; exact hsp

/-- When a newline or space lies within the last 20% of the budgeted
text, the cut happens at such a whitespace position. -/
theorem truncCutPoint_break (cut : List Char) (m : Nat)
    (hex : ∃ i, 4 * m < 5 * i ∧ (cut[i]? = some '\n' ∨ cut[i]? = some ' ')) :
    ∃ j, 4 * m < 5 * j ∧ (cut[j]? = some '\n' ∨ cut[j]? = some ' ') ∧
      truncCutPoint cut m = cut.take j := by
  obtain ⟨i, hi, hw⟩ := hex
  cases hn : lastIdxOf cut '\n' with
  | some i₀ =>
    by_cases hc : 4 * m < 5 * i₀
    · exact ⟨i₀, hc, Or.inl (lastIdxOf_some hn).2.1, tcp_nl cut m hn hc⟩
    · -- the last newline is not in the final 20%, so the witness must be
      -- a space in the final 20%; the last space is then also there
      have hwsp : cut[i]? = some ' ' := by
        rcases hw with hw | hw
        · exfalso
          have hile : i ≤ i₀ := by
            by_contra hgt
            exact (lastIdxOf_some hn).2.2 i (by omega) hw
          omega
        · exact hw
      cases hs : lastIdxOf cut ' ' with
      | some j₀ =>
        have hile : i ≤ j₀ := by
          by_contra hgt
          exact (lastIdxOf_some hs).2.2 i (by omega) hwsp
        have hcj : 4 * m < 5 * j₀ := by omega
        exact ⟨j₀, hcj, Or.inr (lastIdxOf_some hs).2.1, by
          rw [tcp_nl_low cut m hn hc]; exact tsc_sp cut m hs hcj⟩
      | none => exact absurd hwsp (lastIdxOf_none hs i)
  | none =>
    have hwsp : cut[i]? = some ' ' := by
      rcases hw with hw | hw
      · exact absurd hw (lastIdxOf_none hn i)
      · exact hw
    cases hs : lastIdxOf cut ' ' with
    | some j₀ =>
      have hile : i ≤ j₀ := by
        by_contra hgt
        exact (lastIdxOf_some hs).2.2 i (by omega) hwsp
      have hcj : 4 * m < 5 * j₀ := by omega
      exact ⟨j₀, hcj, Or.inr (lastIdxOf_some hs).2.1, by
        rw [tcp_no_nl cut m hn]; exact tsc_sp cut m hs hcj⟩
    | none => exact absurd hwsp (lastIdxOf_none hs i)

/-- **C3 counterexample** — the claim "the text returned when
truncation occurs never exceeds max_chars characters" is false: for
eleven characters and a budget of 10, the code cuts at the budget and
then appends the 17-character marker, returning 27 characters. -/
theorem truncate_response_exceeds_budget :
    (truncate_response ("aaaaaaaaaaa".toList) 10).2 = true ∧
    10 < (truncate_response ("aaaaaaaaaaa".toList) 10).1.length := by
  decide

/-- **C3 (amended)** — when truncation occurs (and it occurs exactly
when the input is longer than the positive budget), the part of the
result before the appended 17-character marker `"\n\n... [truncated]"`
never exceeds `max_chars` characters (so the whole result exceeds the
budget by at most the marker), the break happens at a newline or space
position of the input lying in the last 20% of the budget whenever such
a position exists, and the part before the marker is a true (proper)
prefix of the original text. -/
theorem truncate_response_truncation (data : List Char) (m : Nat)
    (hm : 0 < m) :
    ((truncate_response data m).2 = true ↔ m < data.length) ∧
    (m < data.length →
      ∃ p, (truncate_response data m).1 = p ++ truncMarker ∧
        p.length ≤ m ∧ p.length < data.length ∧ p <+: data ∧
        ((∃ i, 4 * m < 5 * i ∧ i < m ∧
            (data[i]? = some '\n' ∨ data[i]? = some ' ')) →
          ∃ j, 4 * m < 5 * j ∧ j < m ∧
            (data[j]? = some '\n' ∨ data[j]? = some ' ') ∧
            p = pyRStrip (data.take j))) := by
  constructor
  · unfold truncate_response
    by_cases hl : data.length ≤ m
    · rw [if_pos (Or.inr hl)]
      simp only [Bool.false_eq_true, false_iff]
      omega
    · rw [if_neg (by omega)]
      simp only [true_iff]
      omega
  · intro hlen
    have hres : truncate_response data m =
        (pyRStrip (truncCutPoint (data.take m) m) ++ truncMarker, true) := by
      unfold truncate_response
      rw [if_neg (by omega)]
    have hcutlen : (data.take m).length = m := by
      rw [List.length_take]
      omega
    refine ⟨pyRStrip (truncCutPoint (data.take m) m), by rw [hres], ?_, ?_, ?_, ?_⟩
    · have h₁ := (pyRStrip_prefixOf (truncCutPoint (data.take m) m)).length_le
      have h₂ := (truncCutPoint_prefixOf (data.take m) m).length_le
      omega
    · have h₁ := (pyRStrip_prefixOf (truncCutPoint (data.take m) m)).length_le
      have h₂ := (truncCutPoint_prefixOf (data.take m) m).length_le
      omega
    · exact ((pyRStrip_prefixOf _).trans
        ((truncCutPoint_prefixOf (data.take m) m).trans (List.take_prefix m data)))
    · intro ⟨i, hi, him, hw⟩
      have hwcut : (data.take m)[i]? = some '\n' ∨ (data.take m)[i]? = some ' ' := by
        rcases hw with hw | hw
        · left; rw [List.getElem?_take_of_lt him]; exact hw
        · right; rw [List.getElem?_take_of_lt him]; exact hw
      obtain ⟨j, hj, hwj, heq⟩ := truncCutPoint_break (data.take m) m ⟨i, hi, hwcut⟩
      have hjm : j < m := by
        have : j < (data.take m).length := by
          rcases hwj with hwj | hwj <;>
            exact (List.getElem?_eq_some_iff.mp hwj).1
        omega
      refine ⟨j, hj, hjm, ?_, ?_⟩
      · rcases hwj with hwj | hwj
        · left; rw [← List.getElem?_take_of_lt hjm]; exact hwj
        · right; rw [← List.getElem?_take_of_lt hjm]; exact hwj
      · rw [heq, List.take_take, min_eq_left (by omega)]

/-- Witness for the amended C3, at `data = "123456789 ab"`, budget 10:
the space at index 9 lies in the last 20% of the budget and the cut
happens there. -/
theorem truncate_response_truncation_witness :
    ((truncate_response ("123456789 ab".toList) 10).2 = true ↔
      10 < ("123456789 ab".toList).length) ∧
    (10 < ("123456789 ab".toList).length →
      ∃ p, (truncate_response ("123456789 ab".toList) 10).1 =
          p ++ truncMarker ∧
        p.length ≤ 10 ∧ p.length < ("123456789 ab".toList).length ∧
        p <+: "123456789 ab".toList ∧
        ((∃ i, 4 * 10 < 5 * i ∧ i < 10 ∧
            (("123456789 ab".toList)[i]? = some '\n' ∨
              ("123456789 ab".toList)[i]? = some ' ')) →
          ∃ j, 4 * 10 < 5 * j ∧ j < 10 ∧
            (("123456789 ab".toList)[j]? = some '\n' ∨
              ("123456789 ab".toList)[j]? = some ' ') ∧
            p = pyRStrip (("123456789 ab".toList).take j))) :=
  truncate_response_truncation ("123456789 ab".toList) 10 (by decide)

/-! ## Decimal rendering of integers

CPython `str(n)` for a non-negative integer, used by the pagination
hint of `read_wiki_contents` (`contents.py`, lines 105-111).
-/

/-- Little-endian decimal digits of `n` (empty for 0); `fuel ≥ n`
guarantees termination structurally. -/
def natDigitsRev (fuel n : Nat) : List Char :=
  match fuel with
  | 0 => []
  | fuel + 1 => if n = 0 then [] else Nat.digitChar (n % 10) :: natDigitsRev fuel (n / 10)

/-- Decimal rendering of a natural number, as CPython `str(n)` /
`"{:d}"` produce it. -/
def natDigits (n : Nat) : List Char :=
  if n = 0 then ['0'] else (natDigitsRev n n).reverse

/-! ## Sliding-window rate limiter

Embeds `check_rate_limit` from `src/codewiki_mcp/rate_limit.py`
(lines 30-58).  The module-level `_windows: dict[str, list[float]]` is
passed explicitly as an association list; `time.monotonic()` instants
are modelled as exact rationals.  The configured
`RATE_LIMIT_WINDOW_SECONDS` / `RATE_LIMIT_MAX_CALLS` are parameters.
-/

abbrev RLWindows := List (String × List ℚ)

/-- Dictionary read of `_windows[key]`, with `setdefault`'s empty
default for a missing key. -/
def lookupW (st : RLWindows) (k : String) : List ℚ :=
  match st.find? (fun p => p.1 == k) with
  | some p => p.2
  | none => []

/-- Dictionary write `_windows[key] = ts` (inserting the key if new,
as `setdefault` does before the write). -/
def setW (st : RLWindows) (k : String) (ts : List ℚ) : RLWindows :=
  if st.any (fun p => p.1 == k) then
    st.map (fun p => if p.1 == k then (k, ts) else p)
  else st ++ [(k, ts)]

/-- `rate_limit.check_rate_limit` (`rate_limit.py`, lines 30-58) with
time and configuration explicit: prune timestamps at or past the window
(`t > now - window` survives), reject when the remaining count reaches
`max_calls`, otherwise record `now` and allow. -/
def check_rate_limit (window : ℚ) (maxCalls : Nat) (k : String) (now : ℚ)
    (st : RLWindows) : Bool × RLWindows :=
  let pruned := (lookupW st k).filter (fun t => decide (now - window < t))
  if maxCalls ≤ pruned.length then (false, setW st k pruned)
  else (true, setW st k (pruned ++ [now]))

/-- A sequence of `check_rate_limit` calls for one key at the given
instants, collecting each call's verdict (test harness for the
specification, not part of the source). -/
def runCalls (window : ℚ) (maxCalls : Nat) (k : String) :
    RLWindows → List ℚ → List Bool × RLWindows
  | st, [] => ([], st)
  | st, t :: ts =>
    let r := check_rate_limit window maxCalls k t st
    let rest := runCalls window maxCalls k r.2 ts
    (r.1 :: rest.1, rest.2)

/-! ### Dictionary lemmas -/

theorem lookupW_map_set {st : RLWindows} {k : String} (ts : List ℚ)
    (h : st.any (fun p => p.1 == k) = true) :
    lookupW (st.map (fun p => if p.1 == k then (k, ts) else p)) k = ts := by
  induction st with
  | nil => simp at h
  | cons p ps ih =>
    by_cases hp : p.1 = k
    · unfold lookupW
      simp [List.find?_cons, hp]
    · have hps : ps.any (fun p => p.1 == k) = true := by
        rcases List.any_eq_true.mp h with ⟨q, hq, hqk⟩
        rcases List.mem_cons.mp hq with hqp | hq
        · rw [← hqp] at hp; exact absurd (by simpa using hqk) hp
        · exact List.any_eq_true.mpr ⟨q, hq, hqk⟩
      have := ih hps
      unfold lookupW at this ⊢
      simpa [List.find?_cons, hp] using this

theorem lookupW_append_new {st : RLWindows} {k : String} (ts : List ℚ)
    (h : ∀ p ∈ st, ¬ p.1 = k) :
    lookupW (st ++ [(k, ts)]) k = ts := by
  induction st with
  | nil => unfold lookupW; simp [List.find?_cons]
  | cons p ps ih =>
    have hp : ¬ p.1 = k := h p (List.mem_cons_self _ _)
    have := ih (fun q hq => h q (List.mem_cons_of_mem _ hq))
    unfold lookupW at this ⊢
    simpa [List.find?_cons, hp] using this

theorem not_any_key {st : RLWindows} {k : String}
    (h : ¬ st.any (fun p => p.1 == k) = true) : ∀ p ∈ st, ¬ p.1 = k := by
  intro p hp hpk
  exact h (List.any_eq_true.mpr ⟨p, hp, by simpa using hpk⟩)

/-- Reading back the key just written returns exactly what was written. -/
theorem lookupW_setW (st : RLWindows) (k : String) (ts : List ℚ) :
    lookupW (setW st k ts) k = ts := by
  unfold setW
  by_cases h : st.any (fun p => p.1 == k)
  · rw [if_pos h]; exact lookupW_map_set ts h
  · rw [if_neg h]
    exact lookupW_append_new ts (not_any_key h)

/-- Overwriting the same key twice keeps only the second write. -/
theorem setW_setW (st : RLWindows) (k : String) (a b : List ℚ) :
    setW (setW st k a) k b = setW st k b := by
  unfold setW
  by_cases h : st.any (fun p => p.1 == k)
  · rw [if_pos h]
    have hany : (st.map (fun p => if p.1 == k then (k, a) else p)).any
        (fun p => p.1 == k) = true := by
      rcases List.any_eq_true.mp h with ⟨q, hq, hqk⟩
      refine List.any_eq_true.mpr ⟨(k, a), List.mem_map.mpr ⟨q, hq, ?_⟩, by simp⟩
      rw [if_pos hqk]
    rw [if_pos hany, if_pos h, List.map_map]
    apply List.map_congr_left
    intro p _
    by_cases hp : p.1 = k
    · simp [hp]
    · simp [hp]
  · rw [if_neg h]
    have hpt := not_any_key h
    have hany : ((st ++ [(k, a)]).any (fun p => p.1 == k)) = true :=
      List.any_eq_true.mpr ⟨(k, a), by simp, by simp⟩
    rw [if_pos hany, List.map_append]
    rw [List.map_congr_left (fun p hp => by rw [if_neg (by simp [hpt p hp])]),
      List.map_id']
    rw [if_neg h]
    simp

/-- Nested pruning at a later cutoff equals pruning once at the later
cutoff. -/
theorem filter_cutoff_nested (l : List ℚ) (c₁ c₂ : ℚ) (h : c₁ ≤ c₂) :
    (l.filter (fun t => decide (c₁ < t))).filter (fun t => decide (c₂ < t)) =
      l.filter (fun t => decide (c₂ < t)) := by
  induction l with
  | nil => rfl
  | cons x xs ih =>
    by_cases h₁ : c₁ < x
    · rw [List.filter_cons, if_pos (by simpa using h₁), List.filter_cons,
        List.filter_cons, ih]
    · have h₂ : ¬ c₂ < x := fun hlt => h₁ (lt_of_le_of_lt h hlt)
      rw [List.filter_cons, if_neg (by simpa using h₁), List.filter_cons,
        if_neg (by simpa using h₂), ih]

/-- Core invariant: while no recorded or pending instant ever ages out
of the window, each call is allowed exactly while the recorded count is
below the quota. -/
theorem runCalls_aux (W : ℚ) (Q : Nat) (k : String) :
    ∀ (ts : List ℚ) (st : RLWindows) (pre : List ℚ),
      lookupW st k = pre →
      (∀ p ∈ pre, ∀ t ∈ ts, t - W < p) →
      (∀ t₁ ∈ ts, ∀ t₂ ∈ ts, t₂ - W < t₁) →
      (runCalls W Q k st ts).1 =
        List.replicate (min ts.length (Q - pre.length)) true ++
          List.replicate (ts.length - (Q - pre.length)) false := by
  intro ts
  induction ts with
  | nil =>
    intro st pre _ _ _
    simp [runCalls]
  | cons t ts ih =>
    intro st pre hlk hpre hpair
    have hprune : (lookupW st k).filter (fun u => decide (t - W < u)) = pre := by
      rw [hlk]
      exact List.filter_eq_self.mpr (fun p hp => by
        simpa using hpre p hp t (List.mem_cons_self _ _))
    by_cases hq : Q ≤ pre.length
    · have hstep : check_rate_limit W Q k t st = (false, setW st k pre) := by
        unfold check_rate_limit
        simp only [hprune]
        rw [if_pos hq]
      have hrec := ih (setW st k pre) pre (lookupW_setW st k pre)
        (fun p hp u hu => hpre p hp u (List.mem_cons_of_mem _ hu))
        (fun t₁ h₁ t₂ h₂ =>
          hpair t₁ (List.mem_cons_of_mem _ h₁) t₂ (List.mem_cons_of_mem _ h₂))
      show (check_rate_limit W Q k t st).1 ::
          (runCalls W Q k (check_rate_limit W Q k t st).2 ts).1 = _
      rw [hstep]
      simp only
      rw [hrec]
      have hz : Q - pre.length = 0 := by omega
      rw [hz]
      simp [List.replicate_succ]
    · have hstep : check_rate_limit W Q k t st =
          (true, setW st k (pre ++ [t])) := by
        unfold check_rate_limit
        simp only [hprune]
        rw [if_neg hq]
      have hrec := ih (setW st k (pre ++ [t])) (pre ++ [t])
        (lookupW_setW st k (pre ++ [t]))
        (fun p hp u hu => by
          rcases List.mem_append.mp hp with hp | hp
          · exact hpre p hp u (List.mem_cons_of_mem _ hu)
          · have hpt : p = t := by simpa using hp
            rw [hpt]
            exact hpair t (List.mem_cons_self _ _) u (List.mem_cons_of_mem _ hu))
        (fun t₁ h₁ t₂ h₂ =>
          hpair t₁ (List.mem_cons_of_mem _ h₁) t₂ (List.mem_cons_of_mem _ h₂))
      show (check_rate_limit W Q k t st).1 ::
          (runCalls W Q k (check_rate_limit W Q k t st).2 ts).1 = _
      rw [hstep]
      simp only
      rw [hrec]
      have h1 : min (t :: ts).length (Q - pre.length) =
          min ts.length (Q - (pre ++ [t]).length) + 1 := by
        simp only [List.length_cons, List.length_append, List.length_nil]
        omega
      have h2 : (t :: ts).length - (Q - pre.length) =
          ts.length - (Q - (pre ++ [t]).length) := by
        simp only [List.length_cons, List.length_append, List.length_nil]
        omega
      rw [h1, h2, List.replicate_succ, List.cons_append]

/-- **C5** — for every key, window `W` and quota `Q`: starting from a
state with nothing recorded for the key, a nondecreasing sequence of
`Q + 1` call instants all within `W` of the first sees exactly the
first `Q` calls allowed and the `(Q+1)`-th rejected; and a recorded
call no longer counts once it is at least `W` old — with the whole
window expired, the next call is allowed again. -/
theorem check_rate_limit_window_quota :
    (∀ (W : ℚ) (Q : Nat) (k : String) (st : RLWindows) (t₀ : ℚ)
        (rest : List ℚ),
      lookupW st k = [] →
      (t₀ :: rest).length = Q + 1 →
      List.Pairwise (· ≤ ·) (t₀ :: rest) →
      (∀ t ∈ t₀ :: rest, t < t₀ + W) →
      (runCalls W Q k st (t₀ :: rest)).1 =
        List.replicate Q true ++ [false]) ∧
    (∀ (W : ℚ) (Q : Nat) (k : String) (st : RLWindows) (now : ℚ),
      0 < Q →
      (∀ t ∈ lookupW st k, t + W ≤ now) →
      (check_rate_limit W Q k now st).1 = true) := by
  constructor
  · intro W Q k st t₀ rest hlk hlen hsort hwin
    have hhead : ∀ t₁ ∈ t₀ :: rest, t₀ ≤ t₁ := by
      intro t₁ h₁
      rcases List.mem_cons.mp h₁ with h₁ | h₁
      · rw [h₁]
      · exact (List.pairwise_cons.mp hsort).1 t₁ h₁
    have hpair : ∀ t₁ ∈ t₀ :: rest, ∀ t₂ ∈ t₀ :: rest, t₂ - W < t₁ := by
      intro t₁ h₁ t₂ h₂
      have := hwin t₂ h₂
      have := hhead t₁ h₁
      linarith
    have := runCalls_aux W Q k (t₀ :: rest) st [] hlk (by simp) hpair
    rw [this, hlen]
    have hmin : min (Q + 1) (Q - List.length ([] : List ℚ)) = Q := by
      simp
    have hsub : Q + 1 - (Q - List.length ([] : List ℚ)) = 1 := by
      simp
    rw [hmin, hsub, List.replicate_one]
  · intro W Q k st now hQ hexp
    unfold check_rate_limit
    have hprune : (lookupW st k).filter (fun t => decide (now - W < t)) = [] := by
      apply List.filter_eq_nil_iff.mpr
      intro t ht
      have := hexp t ht
      simp only [decide_eq_true_eq]
      intro hlt
      linarith
    simp only [hprune]
    rw [if_neg (by simp only [List.length_nil]; omega)]

/-- Witness for C5: window 60, quota 2, fresh key, calls at instants
0, 1, 2 — allowed, allowed, rejected; and one fully expired recorded
call (instant 0, window 60, now 100) admits the next request. -/
theorem check_rate_limit_window_quota_witness :
    (runCalls 60 2 "repo" [] [0, 1, 2]).1 =
      List.replicate 2 true ++ [false] ∧
    (check_rate_limit 60 1 "repo" 100 [("repo", [0])]).1 = true :=
  ⟨check_rate_limit_window_quota.1 60 2 "repo" [] 0 [1, 2]
      (by decide) (by decide) (by decide) (by simp only [zero_add]; decide),
    check_rate_limit_window_quota.2 60 1 "repo" [("repo", [0])] 100
      (by decide)
      (by
        intro t ht
        simp only [show lookupW [("repo", [(0 : ℚ)])] "repo" = [0] from rfl] at ht
        simp only [List.mem_singleton] at ht
        simp only [ht, zero_add]
        decide)⟩

/-- **C10** — a rejected `check_rate_limit` call mutates nothing
beyond pruning: the key's recorded timestamps become exactly the pruned
list (no new timestamp), and every later call behaves exactly as if the
rejected call had never happened, so rejected calls never extend the
rate-limited period. -/
theorem check_rate_limit_reject_no_record :
    ∀ (W : ℚ) (Q : Nat) (k : String) (now : ℚ) (st : RLWindows),
      (check_rate_limit W Q k now st).1 = false →
      lookupW (check_rate_limit W Q k now st).2 k =
        (lookupW st k).filter (fun t => decide (now - W < t)) ∧
      ∀ now', now ≤ now' →
        check_rate_limit W Q k now' (check_rate_limit W Q k now st).2 =
          check_rate_limit W Q k now' st := by
  intro W Q k now st hrej
  by_cases hq : Q ≤ ((lookupW st k).filter (fun t => decide (now - W < t))).length
  case neg =>
    exfalso
    unfold check_rate_limit at hrej
    simp only [if_neg hq] at hrej
    exact absurd hrej (by decide)
  case pos =>
    have hstate : (check_rate_limit W Q k now st).2 =
        setW st k ((lookupW st k).filter (fun t => decide (now - W < t))) := by
      unfold check_rate_limit
      rw [if_pos hq]
    constructor
    · rw [hstate, lookupW_setW]
    · intro now' hle
      rw [hstate]
      unfold check_rate_limit
      simp only [lookupW_setW,
        filter_cutoff_nested _ (now - W) (now' - W) (by linarith),
        setW_setW]

/-- Witness for C10: quota 1, window 60, the key already holds an
in-window call at instant 10; the rejected call at instant 60 leaves
only the pruned list and later calls behave as if it never happened. -/
theorem check_rate_limit_reject_no_record_witness :
    lookupW (check_rate_limit 60 1 "r" 60 [("r", [10])]).2 "r" =
      (lookupW [("r", [10])] "r").filter
        (fun t => decide ((60 : ℚ) - 60 < t)) ∧
    ∀ now', (60 : ℚ) ≤ now' →
      check_rate_limit 60 1 "r" now'
          (check_rate_limit 60 1 "r" 60 [("r", [10])]).2 =
        check_rate_limit 60 1 "r" now' [("r", [10])] :=
  check_rate_limit_reject_no_record 60 1 "r" 60 [("r", [10])]
    (by simp only [check_rate_limit, sub_self]; decide)

/-! ## Parsed wiki pages

Embeds the data classes of `src/codewiki_mcp/parser.py` and the
functions the claims touch.
-/

/-- `parser.WikiSection` (`parser.py`, lines 28-35).  The `children`
field of the source dataclass is omitted: both extraction strategies
produce a flat list and no code path ever populates it. -/
structure WikiSection where
  title : String
  level : Nat
  content : String
deriving DecidableEq, Repr

/-- `parser.WikiPage` (`parser.py`, lines 38-48).  The `toc` and
`diagrams` fields are omitted: no claim-relevant function reads them. -/
structure WikiPage where
  repo_name : String
  url : String
  title : String
  sections : List WikiSection
  raw_text : String
deriving DecidableEq, Repr

/-- `parser.get_section_by_title` (`parser.py`, lines 460-466):
case-insensitive partial (substring) title match, first section in
document order wins. -/
def get_section_by_title (page : WikiPage) (section_title : String) :
    Option WikiSection :=
  let needle := pyStripS (pyLowerS section_title)
  page.sections.find? (fun s => pyContainsS needle (pyLowerS s.title))

/-- First-match characterization of `List.find?`. -/
theorem find?_first_spec {α : Type} (p : α → Bool) (l : List α) :
    (∀ a, l.find? p = some a → ∃ i : Nat, l[i]? = some a ∧ p a = true ∧
      ∀ j : Nat, j < i → ∀ b, l[j]? = some b → p b = false) ∧
    (l.find? p = none ↔ ∀ a ∈ l, p a = false) := by
  constructor
  · intro a
    induction l with
    | nil => intro h; cases h
    | cons x xs ih =>
      intro h
      rw [List.find?_cons] at h
      by_cases hx : p x = true
      · simp only [hx] at h
        obtain rfl : x = a := by simpa using h
        exact ⟨0, by simp, hx, fun j hj => by omega⟩
      · rw [Bool.not_eq_true] at hx
        simp only [hx] at h
        obtain ⟨i, hi, hpa, hfirst⟩ := ih h
        refine ⟨i + 1, by simpa using hi, hpa, ?_⟩
        intro j hj b hb
        match j with
        | 0 =>
          obtain rfl : x = b := by simpa using hb
          simpa using hx
        | j + 1 =>
          exact hfirst j (by omega) b (by simpa using hb)
  · constructor
    · intro h a ha
      have := List.find?_eq_none.mp h a ha
      simpa using this
    · intro h
      exact List.find?_eq_none.mpr (fun a ha => by simp [h a ha])

/-- **C9** — `get_section_by_title` returns the first section in
document order whose lowercased title contains the lowercased,
stripped `section_title` as a substring, and `none` exactly when no
section title contains it; an exact title match is not required (the
concrete page with a single section "Getting Started" is found by the
needle "started"). -/
theorem get_section_by_title_first_partial_match :
    (∀ (page : WikiPage) (section_title : String), section_title ≠ "" →
      (∀ s, get_section_by_title page section_title = some s →
        ∃ i : Nat, page.sections[i]? = some s ∧
          pyContainsS (pyStripS (pyLowerS section_title))
            (pyLowerS s.title) = true ∧
          ∀ j : Nat, j < i → ∀ s' : WikiSection, page.sections[j]? = some s' →
            pyContainsS (pyStripS (pyLowerS section_title))
              (pyLowerS s'.title) = false) ∧
      (get_section_by_title page section_title = none ↔
        ∀ s ∈ page.sections,
          pyContainsS (pyStripS (pyLowerS section_title))
            (pyLowerS s.title) = false)) ∧
    get_section_by_title
        ⟨"o/r", "u", "t", [⟨"Getting Started", 2, "c"⟩], "raw"⟩
        "started" = some ⟨"Getting Started", 2, "c"⟩ := by
  constructor
  · intro page section_title _
    exact find?_first_spec
      (fun s => pyContainsS (pyStripS (pyLowerS section_title)) (pyLowerS s.title))
      page.sections
  · decide

/-- Witness for C9, at a two-section page and the partial needle
"started" (matching the second section only). -/
theorem get_section_by_title_first_partial_match_witness :
    (∀ s, get_section_by_title
        ⟨"o/r", "u", "t",
          [⟨"Overview", 2, "x"⟩, ⟨"Getting Started", 2, "y"⟩], "raw"⟩
        "started" = some s →
      ∃ i : Nat, ([⟨"Overview", 2, "x"⟩,
          (⟨"Getting Started", 2, "y"⟩ : WikiSection)] : List WikiSection)[i]? =
            some s ∧
        pyContainsS (pyStripS (pyLowerS "started")) (pyLowerS s.title) = true ∧
        ∀ j : Nat, j < i → ∀ s' : WikiSection,
          ([⟨"Overview", 2, "x"⟩,
            (⟨"Getting Started", 2, "y"⟩ : WikiSection)] : List WikiSection)[j]? =
              some s' →
          pyContainsS (pyStripS (pyLowerS "started")) (pyLowerS s'.title) =
            false) ∧
    (get_section_by_title
        ⟨"o/r", "u", "t",
          [⟨"Overview", 2, "x"⟩, ⟨"Getting Started", 2, "y"⟩], "raw"⟩
        "started" = none ↔
      ∀ s ∈ ([⟨"Overview", 2, "x"⟩,
          (⟨"Getting Started", 2, "y"⟩ : WikiSection)] : List WikiSection),
        pyContainsS (pyStripS (pyLowerS "started")) (pyLowerS s.title) =
          false) :=
  get_section_by_title_first_partial_match.1
    ⟨"o/r", "u", "t",
      [⟨"Overview", 2, "x"⟩, ⟨"Getting Started", 2, "y"⟩], "raw"⟩
    "started" (by decide)

/-! ## Error taxonomy and fetched-page validation

Embeds `ErrorCode` (`src/codewiki_mcp/types.py`, lines 106-113) and
`_validate_fetched_page` / `_is_not_indexed`
(`src/codewiki_mcp/tools/_helpers.py`, lines 32-41 and 220-243).
-/

/-- `types.ErrorCode` (`types.py`, lines 106-113) — exactly the seven
members the source declares.  Note: `_helpers.py` and
`tools/search.py` also reference `ErrorCode.RATE_LIMITED` and
`ErrorCode.NOT_INDEXED`, which this enum does not define. -/
inductive ErrorCode where
  | VALIDATION
  | TIMEOUT
  | DRIVER_ERROR
  | NO_CONTENT
  | INPUT_NOT_FOUND
  | INTERNAL
  | RETRY_EXHAUSTED
deriving DecidableEq, Repr

/-- Python attribute access `ErrorCode.<name>`: `some` member for the
seven names defined in `types.py`, `none` for any other name (at
runtime CPython raises `AttributeError`). -/
def errorCodeMember (name : String) : Option ErrorCode :=
  if name = "VALIDATION" then some ErrorCode.VALIDATION
  else if name = "TIMEOUT" then some ErrorCode.TIMEOUT
  else if name = "DRIVER_ERROR" then some ErrorCode.DRIVER_ERROR
  else if name = "NO_CONTENT" then some ErrorCode.NO_CONTENT
  else if name = "INPUT_NOT_FOUND" then some ErrorCode.INPUT_NOT_FOUND
  else if name = "INTERNAL" then some ErrorCode.INTERNAL
  else if name = "RETRY_EXHAUSTED" then some ErrorCode.RETRY_EXHAUSTED
  else none

/-- **C8** — the error-code type has no rate-limit-exceeded member:
`ErrorCode.RATE_LIMITED` (referenced by the rate-limit rejection branch
of `fetch_page_or_error` in `_helpers.py` lines 184-197, and asserted
by `tests/test_tools.py`) is not a member of the `ErrorCode` enum of
`types.py` lines 106-113, so a rate-limited request raises
`AttributeError` instead of returning an envelope carrying that code
(`NOT_INDEXED`, referenced likewise, is also missing); the seven codes
the enum does define are exactly validation, timeout, driver failure,
content-absent, input-element-not-found, internal, and
retry-exhausted. -/
theorem errorCode_lacks_rate_limited :
    errorCodeMember "RATE_LIMITED" = none ∧
    errorCodeMember "NOT_INDEXED" = none ∧
    errorCodeMember "VALIDATION" = some ErrorCode.VALIDATION ∧
    errorCodeMember "TIMEOUT" = some ErrorCode.TIMEOUT ∧
    errorCodeMember "DRIVER_ERROR" = some ErrorCode.DRIVER_ERROR ∧
    errorCodeMember "NO_CONTENT" = some ErrorCode.NO_CONTENT ∧
    errorCodeMember "INPUT_NOT_FOUND" = some ErrorCode.INPUT_NOT_FOUND ∧
    errorCodeMember "INTERNAL" = some ErrorCode.INTERNAL ∧
    errorCodeMember "RETRY_EXHAUSTED" = some ErrorCode.RETRY_EXHAUSTED := by
  decide

/-- Result of `_validate_fetched_page`: the page itself on success, an
error envelope, or the `AttributeError` raised when a branch accesses
an `ErrorCode` member that `types.py` does not define. -/
inductive ValidateResult where
  | page (p : WikiPage)
  | error (code : ErrorCode) (message : String)
  | attributeFailure (missingMember : String)
deriving DecidableEq, Repr

/-- `_helpers._is_not_indexed` (`_helpers.py`, lines 32-41).  The
indicator list `config.NOT_INDEXED_INDICATORS` is not defined in the
source tree's `config.py`, so it is a parameter here; no claim depends
on its value. -/
def is_not_indexed (notIndexedIndicators : List String)
    (page : WikiPage) : Bool :=
  if !page.sections.isEmpty then false
  else notIndexedIndicators.any
    (fun ind => pyContainsS (pyLowerS ind) (pyLowerS page.raw_text))

/-- `_helpers._validate_fetched_page` (`_helpers.py`, lines 220-243).
The second branch returns `ToolResponse.error(ErrorCode.NOT_INDEXED, …)`
in the source, but `ErrorCode` has no such member (`types.py`,
lines 106-113), so reaching it raises `AttributeError`; that outcome is
modelled explicitly. -/
def validate_fetched_page (notIndexedIndicators : List String)
    (repo_url : String) (page : WikiPage) : ValidateResult :=
  if page.sections.isEmpty && page.raw_text == "" then
    ValidateResult.error ErrorCode.NO_CONTENT
      ("No content found for " ++ repo_url ++
        ". The repository may not be indexed by CodeWiki.")
  else if is_not_indexed notIndexedIndicators page then
    ValidateResult.attributeFailure "NOT_INDEXED"
  else ValidateResult.page page

/-- **C7** — a fetched page with no sections and empty raw text is
classified content-absent: `_validate_fetched_page` returns the
`NO_CONTENT` error envelope and never the page as a successful fetch,
whatever extraction produced it and whatever the configured
not-indexed indicators are. -/
theorem validate_fetched_page_no_content
    (notIndexedIndicators : List String) (repo_url : String)
    (page : WikiPage)
    (h1 : page.sections = []) (h2 : page.raw_text = "") :
    validate_fetched_page notIndexedIndicators repo_url page =
      ValidateResult.error ErrorCode.NO_CONTENT
        ("No content found for " ++ repo_url ++
          ". The repository may not be indexed by CodeWiki.") ∧
    ∀ p', validate_fetched_page notIndexedIndicators repo_url page ≠
      ValidateResult.page p' := by
  have hcond : (page.sections.isEmpty && page.raw_text == "") = true := by
    simp [h1, h2]
  unfold validate_fetched_page
  rw [if_pos hcond]
  exact ⟨rfl, fun p' h => by cases h⟩

/-- Witness for C7: the empty page fetched for a repo URL. -/
theorem validate_fetched_page_no_content_witness :
    validate_fetched_page ["not yet indexed"] "https://github.com/o/r"
        ⟨"o/r", "u", "", [], ""⟩ =
      ValidateResult.error ErrorCode.NO_CONTENT
        ("No content found for " ++ "https://github.com/o/r" ++
          ". The repository may not be indexed by CodeWiki.") ∧
    ∀ p', validate_fetched_page ["not yet indexed"] "https://github.com/o/r"
        ⟨"o/r", "u", "", [], ""⟩ ≠ ValidateResult.page p' :=
  validate_fetched_page_no_content ["not yet indexed"]
    "https://github.com/o/r" ⟨"o/r", "u", "", [], ""⟩ rfl rfl

/-! ## Paginated full-page rendering

Embeds the paginated path of `read_wiki_contents`
(`src/codewiki_mcp/tools/contents.py`, lines 92-113).
-/

/-- `"#" * min(level + 1, 6)` — the heading prefix of
`read_wiki_contents` (`contents.py`, line 100). -/
def secPrefix (level : Nat) : String :=
  ⟨List.replicate (min (level + 1) 6) '#'⟩

/-- CPython `str(n)` for a non-negative integer. -/
def natStr (n : Nat) : String := ⟨natDigits n⟩

/-- Modelled from the spec: `validate_contents_input` is imported by
`tools/contents.py` from `types.py`, but the source tree's `types.py`
defines only the search/topics/section validators.  Per the tool's
documented contract ("offset: Section index to start from (0-based,
default 0); limit: Maximum sections to return (default 5, max 50)") an
in-range offset/limit pair passes through unchanged. -/
def validate_contents_offset_limit (offset limit : Nat) :
    Option (Nat × Nat) :=
  if limit = 0 ∨ 50 < limit then none else some (offset, limit)

/-- The continuation hint appended when more sections remain
(`contents.py`, lines 105-111). -/
def contents_hint (offset slicedLen total next_off : Nat) : String :=
  "\n\n---\n*Showing sections " ++ natStr (offset + 1) ++ "–" ++
    natStr (offset + slicedLen) ++ " of " ++ natStr total ++
    ". Call again with `offset=" ++ natStr next_off ++ "` to continue.*"

/-- The `parts` list built by the paginated full-page path of
`read_wiki_contents` (`contents.py`, lines 92-113): page heading, then
for each section of the requested slice a heading line and, when
non-empty, its content, then the continuation hint when further
sections remain. -/
def read_wiki_contents_parts (page : WikiPage) (offset limit : Nat) :
    List String :=
  let total := page.sections.length
  let sliced := (page.sections.drop offset).take limit
  ["# " ++ page.title ++ "\n"] ++
  sliced.flatMap (fun s =>
    ["\n" ++ secPrefix s.level ++ " " ++ s.title ++ "\n"] ++
    (if s.content ≠ "" then [s.content] else [])) ++
  (if offset + limit < total then
    [contents_hint offset sliced.length total (offset + limit)] else [])

/-- `has_more` as computed at `contents.py`, line 96. -/
def contents_has_more (page : WikiPage) (offset limit : Nat) : Bool :=
  decide (offset + limit < page.sections.length)

/-- The final response text `"\n".join(parts).strip()`
(`contents.py`, line 113). -/
def read_wiki_contents_data (page : WikiPage) (offset limit : Nat) : String :=
  pyStripS (String.intercalate "\n" (read_wiki_contents_parts page offset limit))

/-- **C6** — on a parsed page with exactly four ordered sections,
`read_wiki_contents` with empty `section_title`, `offset = 0` and
`limit = 2` (accepted unchanged by input validation) renders exactly
the first two sections in order, omits the third and fourth, reports
`has_more`, and appends the continuation hint naming `offset=2`. -/
theorem read_wiki_contents_four_sections :
    ∀ (repo url title raw : String) (s0 s1 s2 s3 : WikiSection),
      read_wiki_contents_parts ⟨repo, url, title, [s0, s1, s2, s3], raw⟩ 0 2 =
        ["# " ++ title ++ "\n",
          "\n" ++ secPrefix s0.level ++ " " ++ s0.title ++ "\n"] ++
        (if s0.content ≠ "" then [s0.content] else []) ++
        ["\n" ++ secPrefix s1.level ++ " " ++ s1.title ++ "\n"] ++
        (if s1.content ≠ "" then [s1.content] else []) ++
        ["\n\n---\n*Showing sections 1–2 of 4. " ++
          "Call again with `offset=2` to continue.*"] ∧
      contents_has_more ⟨repo, url, title, [s0, s1, s2, s3], raw⟩ 0 2 = true ∧
      validate_contents_offset_limit 0 2 = some (0, 2) := by
  intro repo url title raw s0 s1 s2 s3
  refine ⟨?_, rfl, rfl⟩
  unfold read_wiki_contents_parts
  simp only [List.drop_zero, List.take_cons, List.take_zero, List.flatMap_cons,
    List.flatMap_nil, List.length_cons, List.length_nil]
  norm_num
  decide

end CodeWiki
